import Mathlib

/-!
Shallow embedding of `src/nix_review/nix.py`: the `Attr` entity
(`Target` in the spec), the evaluation dedup/filter pass
`_nix_eval_filter`, the evaluator `nix_eval`, the builder `nix_build`
and the verifier `Attr.was_build`.

External effects (subprocess invocations, temp files, log messages) are
made explicit: the outcome of each external invocation is a parameter,
and the sequence of external actions the code performs is returned as an
event trace.
-/

namespace NixReview

/-- One value of the JSON mapping the external evaluation tool returns:
`{exists, broken, drvPath, path}` (see `nix_eval`, which feeds each entry
to `Attr`). `exists_` stands for the Python key `exists`. -/
structure EvalProps where
  exists_ : Bool
  broken : Bool
  path : Option String
  drvPath : Option String
deriving Repr, DecidableEq

/-- The `Attr` class of `nix.py`. `path_verified` is the `_path_verified`
tri-state cache (`None` / `True` / `False`). In the Python source the
constructor signature is `aliases: List[str] = []`: the default is a
single list object evaluated once at function definition time, shared by
every `Attr` constructed without an explicit `aliases` argument; the
embedding accounts for that sharing in `nix_eval_filter` below. -/
structure Attr where
  name : String
  exists_ : Bool
  broken : Bool
  blacklisted : Bool
  path : Option String
  drvPath : Option String
  path_verified : Option Bool := none
  aliases : List String := []
deriving Repr, DecidableEq

/-- The fixed denylist of `_nix_eval_filter` (workaround for
ofborg issue 269). -/
def blacklistNames : List String :=
  ["tests.nixos-functions.nixos-test", "tests.nixos-functions.nixosTest-test"]

/-- The `Attr(...)` construction inside the loop of `_nix_eval_filter`:
`blacklisted = name in blacklist`, all other fields copied from the JSON
entry; `aliases` is left to the (shared) default, represented here by
`[]` and patched at return time in `nix_eval_filter`. -/
def mkAttr (name : String) (props : EvalProps) : Attr :=
  { name := name
    exists_ := props.exists_
    broken := props.broken
    blacklisted := blacklistNames.contains name
    path := props.path
    drvPath := props.drvPath
    path_verified := none
    aliases := [] }

/-- Lookup in an insertion-ordered association list, modelling
`attr_by_path.get(key, None)` on a Python `dict`. -/
def dictGet (l : List (String × Attr)) (k : String) : Option Attr :=
  match l with
  | [] => none
  | (k2, v) :: rest => if k2 = k then some v else dictGet rest k

/-- Assignment `attr_by_path[key] = value` on a Python `dict`: an
existing key keeps its original insertion position, a new key is
appended at the end. -/
def dictInsert (l : List (String × Attr)) (k : String) (v : Attr) :
    List (String × Attr) :=
  match l with
  | [] => [(k, v)]
  | (k2, v2) :: rest =>
      if k2 = k then (k, v) :: rest else (k2, v2) :: dictInsert rest k v

/-- The loop state of `_nix_eval_filter`: the insertion-ordered
`attr_by_path` dict, the `broken` list (entries with `path is None`),
and the contents of the one list object shared by every `aliases`
attribute (the mutable default argument of `Attr.__init__`). -/
structure FilterState where
  byPath : List (String × Attr)
  broken : List Attr
  shared : List String
deriving Repr, DecidableEq

/-- One iteration of the `for name, props in json.items()` loop of
`_nix_eval_filter`. Both `attr.aliases.append(...)` and
`other.aliases.append(...)` mutate the same shared list, so the step
records appended names in `shared`. -/
def filterStep (st : FilterState) (entry : String × EvalProps) : FilterState :=
  let attr := mkAttr entry.1 entry.2
  match attr.path with
  | some p =>
      match dictGet st.byPath p with
      | none => { st with byPath := dictInsert st.byPath p attr }
      | some other =>
          if other.name.length > attr.name.length then
            { st with
                byPath := dictInsert st.byPath p attr
                shared := st.shared ++ [other.name] }
          else
            { st with shared := st.shared ++ [attr.name] }
  | none => { st with broken := st.broken ++ [attr] }

/-- The `_nix_eval_filter` function. The input is the parsed JSON object
as an insertion-ordered list of `(name, props)` pairs (Python dicts
preserve insertion order). The return value is
`list(attr_by_path.values()) + broken`; since every `Attr` of the batch
holds a reference to the one shared default list, reading any returned
target's `aliases` yields the final contents of that shared list. -/
def nix_eval_filter (json : List (String × EvalProps)) : List Attr :=
  let st := json.foldl filterStep ⟨[], [], []⟩
  st.byPath.map (fun kv => { kv.2 with aliases := st.shared }) ++
    st.broken.map (fun a => { a with aliases := st.shared })

/-- External actions performed by `nix_eval`, in order. -/
inductive NEvent where
  | writeArtifact
  | runEval
  | warnMsg
  | closeArtifact
  | unlinkArtifact
deriving Repr, DecidableEq

/-- The `nix_eval` function. `run` is the outcome of the single
`subprocess.run(cmd, check=True, ...)` invocation: `Except.error ()` for
a `CalledProcessError` (non-zero exit), `Except.ok json` for the parsed
stdout. On error the code sets `delete = False`, warns and re-raises, so
the `finally` block closes but does not unlink the temp file; on success
the `finally` block closes and unlinks it. -/
def nix_eval (run : Except Unit (List (String × EvalProps))) :
    Except Unit (List Attr) × List NEvent :=
  match run with
  | Except.error _ =>
      (Except.error (),
        [NEvent.writeArtifact, NEvent.runEval, NEvent.warnMsg,
          NEvent.closeArtifact])
  | Except.ok js =>
      (Except.ok (nix_eval_filter js),
        [NEvent.writeArtifact, NEvent.runEval, NEvent.closeArtifact,
          NEvent.unlinkArtifact])

/-- The `filtered` list of `nix_build`: the loop
`for attr in attrs: if not (attr.broken or attr.blacklisted):
filtered.append(attr.name)`. -/
def buildFiltered (attrs : List Attr) : List String :=
  (attrs.filter (fun a => !(a.broken || a.blacklisted))).map Attr.name

/-- External actions performed by `nix_build`, in order. `infoMsg` is
the `info("Nothing changed")` log line (not an external call);
`evalCall` is the whole `nix_eval` invocation; `writeBuildFile` is
`write_shell_expression(build, filtered)`; `buildCall` records the
attribute names passed via the generated file and whether the `nix
build` invocation exited zero. -/
inductive BEvent where
  | infoMsg
  | evalCall
  | writeBuildFile (names : List String)
  | buildCall (names : List String) (ok : Bool)
deriving Repr, DecidableEq

/-- The `nix_build` function. `attr_names` is the input set (only
emptiness and membership matter), `evalRun` the outcome of the external
evaluation invocation inside `nix_eval`, `buildOk` the exit status of
the `nix build` invocation run by `sh` (from `utils`, modelled from the
spec: it raises `CalledProcessError` on non-zero exit, which `nix_build`
catches with `pass`). -/
def nix_build (attr_names : List String)
    (evalRun : Except Unit (List (String × EvalProps)))
    (buildOk : Bool) : Except Unit (List Attr) × List BEvent :=
  if attr_names.isEmpty then (Except.ok [], [BEvent.infoMsg])
  else
    match nix_eval evalRun with
    | (Except.error e, _) => (Except.error e, [BEvent.evalCall])
    | (Except.ok attrs, _) =>
        let filtered := buildFiltered attrs
        if filtered.length = 0 then (Except.ok attrs, [BEvent.evalCall])
        else
          (Except.ok attrs,
            [BEvent.evalCall, BEvent.writeBuildFile filtered,
              BEvent.buildCall filtered buildOk])

/-- The `Attr.was_build` method. `oracle p` is the exit status of
`nix-store --verify-path p` (`true` for exit code zero). Returns the
boolean result, the updated object, and how many external invocations
were made by this call. -/
def was_build (oracle : String → Bool) (a : Attr) : Bool × Attr × Nat :=
  match a.path with
  | none => (false, a, 0)
  | some p =>
      match a.path_verified with
      | some v => (v, a, 0)
      | none =>
          let v := oracle p
          (v, { a with path_verified := some v }, 1)

/-- A sequence of `n` successive `was_build` calls on one target: the
list of returned booleans, the final object, and the total number of
external invocations. -/
def was_build_seq (oracle : String → Bool) (a : Attr) :
    Nat → List Bool × Attr × Nat
  | 0 => ([], a, 0)
  | n + 1 =>
      let r := was_build oracle a
      let rest := was_build_seq oracle r.2.1 n
      (r.1 :: rest.1, rest.2.1, r.2.2 + rest.2.2)

/-- First-occurrence order of a list of keys: the key order a Python
`dict` ends up with after assigning each key in turn (used to state the
insertion order of `attr_by_path`). -/
def insertNew (ks : List String) (k : String) : List String :=
  if k ∈ ks then ks else ks ++ [k]

/-- The distinct elements of `ps` in order of first occurrence. -/
def firstOccurrences (ps : List String) : List String :=
  ps.foldl insertNew []

/-- The evaluation results of a batch whose `path` is a given non-null
output path (a "merge group"). -/
def groupEntries (p : String) (json : List (String × EvalProps)) :
    List (String × EvalProps) :=
  json.filter (fun e => e.2.path = some p)

/-- The canonical half of the list returned by `_nix_eval_filter`:
`list(attr_by_path.values())`, each value read with the final contents
of the shared aliases list. -/
def canonPart (json : List (String × EvalProps)) : List Attr :=
  (json.foldl filterStep ⟨[], [], []⟩).byPath.map
    (fun kv => { kv.2 with
      aliases := (json.foldl filterStep ⟨[], [], []⟩).shared })

/-- The unresolved half of the list returned by `_nix_eval_filter`: the
`broken` list, each element read with the final contents of the shared
aliases list. -/
def unresPart (json : List (String × EvalProps)) : List Attr :=
  (json.foldl filterStep ⟨[], [], []⟩).broken.map
    (fun a => { a with
      aliases := (json.foldl filterStep ⟨[], [], []⟩).shared })

/-- Invariant of the dedup loop for one output path `p`: `g` is the list
of already-processed evaluation results whose `path` is `some p`. If no
canonical target is registered for `p` the group is empty; otherwise the
registered target is built from one group entry whose name is strictly
shorter than every earlier entry's and no longer than every later
entry's, and every other group entry's name has been appended to the
shared aliases list. -/
def GroupInv (p : String) (st : FilterState)
    (g : List (String × EvalProps)) : Prop :=
  (dictGet st.byPath p = none → g = []) ∧
  (∀ a, dictGet st.byPath p = some a →
    ∃ pre e suf, g = pre ++ e :: suf ∧ a = mkAttr e.1 e.2 ∧
      (∀ f ∈ pre, e.1.length < f.1.length) ∧
      (∀ f ∈ suf, e.1.length ≤ f.1.length) ∧
      (∀ f ∈ pre, f.1 ∈ st.shared) ∧
      (∀ f ∈ suf, f.1 ∈ st.shared))

/-! Association-list lemmas about the `attr_by_path` dict model. -/

theorem dictGet_dictInsert_self (l : List (String × Attr)) (k : String)
    (v : Attr) : dictGet (dictInsert l k v) k = some v := by
  induction l with
  | nil => simp [dictGet, dictInsert]
  | cons kv rest ih =>
      by_cases h : kv.1 = k
      · simp [dictGet, dictInsert, h]
      · simp [dictGet, dictInsert, h, ih]

theorem dictGet_dictInsert_ne (l : List (String × Attr)) (k q : String)
    (v : Attr) (h : q ≠ k) : dictGet (dictInsert l k v) q = dictGet l q := by
  have hkq : ¬ k = q := fun h2 => h h2.symm
  induction l with
  | nil => simp [dictGet, dictInsert, hkq]
  | cons kv rest ih =>
      by_cases h2 : kv.1 = k
      · simp [dictGet, dictInsert, h2, hkq]
      · by_cases h3 : kv.1 = q <;> simp [dictGet, dictInsert, h2, h3, ih, h]

theorem dictInsert_keys (l : List (String × Attr)) (k : String) (v : Attr) :
    (dictInsert l k v).map Prod.fst = insertNew (l.map Prod.fst) k := by
  induction l with
  | nil => simp [dictInsert, insertNew]
  | cons kv rest ih =>
      by_cases h : kv.1 = k
      · simp [dictInsert, insertNew, h]
      · have h4 : ¬ k = kv.1 := fun h3 => h h3.symm
        have h2 : (k ∈ kv.1 :: rest.map Prod.fst) ↔ k ∈ rest.map Prod.fst := by
          simp [h4]
        by_cases h3 : k ∈ rest.map Prod.fst <;>
          simp [dictInsert, insertNew, h, h4, ih, h2, h3]

theorem dictGet_mem (l : List (String × Attr)) (k : String) (v : Attr)
    (h : dictGet l k = some v) : (k, v) ∈ l := by
  induction l with
  | nil => simp [dictGet] at h
  | cons kv rest ih =>
      by_cases h2 : kv.1 = k
      · simp [dictGet, h2] at h
        subst h2 h
        exact List.mem_cons_self _ _
      · simp [dictGet, h2] at h
        exact List.mem_cons_of_mem _ (ih h)

theorem dictGet_key_mem (l : List (String × Attr)) (k : String) (v : Attr)
    (h : dictGet l k = some v) : k ∈ l.map Prod.fst := by
  have h2 := dictGet_mem l k v h
  exact List.mem_map_of_mem Prod.fst h2

theorem mem_dictInsert (l : List (String × Attr)) (k : String) (v : Attr)
    (kv : String × Attr) (h : kv ∈ dictInsert l k v) :
    kv = (k, v) ∨ kv ∈ l := by
  induction l with
  | nil => simp [dictInsert] at h; simp [h]
  | cons kv2 rest ih =>
      by_cases h2 : kv2.1 = k
      · simp [dictInsert, h2] at h
        rcases h with h | h
        · exact Or.inl h
        · exact Or.inr (List.mem_cons_of_mem _ h)
      · simp only [dictInsert, h2, if_false] at h
        rcases List.mem_cons.mp h with h | h
        · exact Or.inr (by simp [h])
        · rcases ih h with h3 | h3
          · exact Or.inl h3
          · exact Or.inr (List.mem_cons_of_mem _ h3)

/-! Branch lemmas for one iteration of the `_nix_eval_filter` loop. -/

theorem filterStep_none (st : FilterState) (e : String × EvalProps)
    (h : e.2.path = none) :
    filterStep st e = { st with broken := st.broken ++ [mkAttr e.1 e.2] } := by
  simp only [filterStep, mkAttr, h]

theorem filterStep_some_new (st : FilterState) (e : String × EvalProps)
    (p : String) (hp : e.2.path = some p) (hg : dictGet st.byPath p = none) :
    filterStep st e =
      { st with byPath := dictInsert st.byPath p (mkAttr e.1 e.2) } := by
  simp only [filterStep, mkAttr, hp, hg]

theorem filterStep_some_replace (st : FilterState) (e : String × EvalProps)
    (p : String) (other : Attr) (hp : e.2.path = some p)
    (hg : dictGet st.byPath p = some other)
    (hlen : other.name.length > e.1.length) :
    filterStep st e =
      { st with
          byPath := dictInsert st.byPath p (mkAttr e.1 e.2)
          shared := st.shared ++ [other.name] } := by
  simp only [filterStep, mkAttr, hp, hg, hlen, if_true, gt_iff_lt]

theorem filterStep_some_keep (st : FilterState) (e : String × EvalProps)
    (p : String) (other : Attr) (hp : e.2.path = some p)
    (hg : dictGet st.byPath p = some other)
    (hlen : ¬ other.name.length > e.1.length) :
    filterStep st e = { st with shared := st.shared ++ [e.1] } := by
  simp only [filterStep, mkAttr, hp, hg]
  simp [hlen]

/-! Invariants of the `_nix_eval_filter` loop, proved by folding over the
remaining entries from an arbitrary intermediate state. -/

theorem fold_broken (json : List (String × EvalProps)) (st : FilterState) :
    (json.foldl filterStep st).broken =
      st.broken ++ (json.filter (fun e => e.2.path = none)).map
        (fun e => mkAttr e.1 e.2) := by
  induction json generalizing st with
  | nil => simp
  | cons e rest ih =>
      rw [List.foldl_cons, ih]
      cases hp : e.2.path with
      | none =>
          rw [filterStep_none st e hp]
          simp [hp]
      | some p =>
          have hb : (filterStep st e).broken = st.broken := by
            cases hg : dictGet st.byPath p with
            | none => rw [filterStep_some_new st e p hp hg]
            | some other =>
                by_cases hlen : other.name.length > e.1.length
                · rw [filterStep_some_replace st e p other hp hg hlen]
                · rw [filterStep_some_keep st e p other hp hg hlen]
          rw [hb]
          simp [hp]

theorem fold_shared (json : List (String × EvalProps)) (st : FilterState) :
    ∃ t, (json.foldl filterStep st).shared = st.shared ++ t := by
  induction json generalizing st with
  | nil => exact ⟨[], by simp⟩
  | cons e rest ih =>
      rw [List.foldl_cons]
      obtain ⟨t, ht⟩ := ih (filterStep st e)
      have hstep : ∃ u, (filterStep st e).shared = st.shared ++ u := by
        cases hp : e.2.path with
        | none => exact ⟨[], by rw [filterStep_none st e hp]; simp⟩
        | some p =>
            cases hg : dictGet st.byPath p with
            | none => exact ⟨[], by rw [filterStep_some_new st e p hp hg]; simp⟩
            | some other =>
                by_cases hlen : other.name.length > e.1.length
                · exact ⟨[other.name],
                    by rw [filterStep_some_replace st e p other hp hg hlen]⟩
                · exact ⟨[e.1], by rw [filterStep_some_keep st e p other hp hg hlen]⟩
      obtain ⟨u, hu⟩ := hstep
      exact ⟨u ++ t, by rw [ht, hu, List.append_assoc]⟩

theorem fold_shared_mem (json : List (String × EvalProps)) (st : FilterState)
    (x : String) (h : x ∈ st.shared) : x ∈ (json.foldl filterStep st).shared := by
  obtain ⟨t, ht⟩ := fold_shared json st
  rw [ht]
  exact List.mem_append_left t h

theorem fold_keys (json : List (String × EvalProps)) (st : FilterState) :
    ((json.foldl filterStep st).byPath).map Prod.fst =
      (json.filterMap (fun e => e.2.path)).foldl insertNew
        (st.byPath.map Prod.fst) := by
  induction json generalizing st with
  | nil => simp
  | cons e rest ih =>
      rw [List.foldl_cons, ih]
      cases hp : e.2.path with
      | none =>
          rw [filterStep_none st e hp]
          simp [hp]
      | some p =>
          cases hg : dictGet st.byPath p with
          | none =>
              rw [filterStep_some_new st e p hp hg]
              simp [hp, dictInsert_keys]
          | some other =>
              have hmem : p ∈ st.byPath.map Prod.fst := dictGet_key_mem _ _ _ hg
              have hins : insertNew (st.byPath.map Prod.fst) p =
                  st.byPath.map Prod.fst := by simp [insertNew, hmem]
              by_cases hlen : other.name.length > e.1.length
              · rw [filterStep_some_replace st e p other hp hg hlen]
                simp [hp, dictInsert_keys, hins]
              · rw [filterStep_some_keep st e p other hp hg hlen]
                simp [hp, hins]

theorem fold_pathInv (json : List (String × EvalProps)) (st : FilterState)
    (h : ∀ kv ∈ st.byPath, kv.2.path = some kv.1) :
    ∀ kv ∈ (json.foldl filterStep st).byPath, kv.2.path = some kv.1 := by
  induction json generalizing st with
  | nil => exact h
  | cons e rest ih =>
      rw [List.foldl_cons]
      apply ih
      intro kv hkv
      cases hp : e.2.path with
      | none =>
          rw [filterStep_none st e hp] at hkv
          exact h kv hkv
      | some p =>
          have hnew : kv = (p, mkAttr e.1 e.2) → kv.2.path = some kv.1 := by
            intro h2
            rw [h2]
            simpa [mkAttr] using hp
          cases hg : dictGet st.byPath p with
          | none =>
              rw [filterStep_some_new st e p hp hg] at hkv
              rcases mem_dictInsert _ _ _ _ hkv with h2 | h2
              · exact hnew h2
              · exact h kv h2
          | some other =>
              by_cases hlen : other.name.length > e.1.length
              · rw [filterStep_some_replace st e p other hp hg hlen] at hkv
                rcases mem_dictInsert _ _ _ _ hkv with h2 | h2
                · exact hnew h2
                · exact h kv h2
              · rw [filterStep_some_keep st e p other hp hg hlen] at hkv
                exact h kv hkv

theorem fold_values (json : List (String × EvalProps)) (st : FilterState)
    (kv : String × Attr) (h : kv ∈ (json.foldl filterStep st).byPath) :
    kv ∈ st.byPath ∨ ∃ e ∈ json, kv.2 = mkAttr e.1 e.2 := by
  induction json generalizing st with
  | nil => left; simpa using h
  | cons e rest ih =>
      rw [List.foldl_cons] at h
      have hstep : kv ∈ (filterStep st e).byPath →
          kv ∈ st.byPath ∨ kv.2 = mkAttr e.1 e.2 := by
        intro hkv
        cases hp : e.2.path with
        | none =>
            rw [filterStep_none st e hp] at hkv
            exact Or.inl hkv
        | some p =>
            cases hg : dictGet st.byPath p with
            | none =>
                rw [filterStep_some_new st e p hp hg] at hkv
                rcases mem_dictInsert _ _ _ _ hkv with h2 | h2
                · exact Or.inr (by rw [h2])
                · exact Or.inl h2
            | some other =>
                by_cases hlen : other.name.length > e.1.length
                · rw [filterStep_some_replace st e p other hp hg hlen] at hkv
                  rcases mem_dictInsert _ _ _ _ hkv with h2 | h2
                  · exact Or.inr (by rw [h2])
                  · exact Or.inl h2
                · rw [filterStep_some_keep st e p other hp hg hlen] at hkv
                  exact Or.inl hkv
      rcases ih (filterStep st e) h with h2 | h2
      · rcases hstep h2 with h3 | h3
        · exact Or.inl h3
        · exact Or.inr ⟨e, List.mem_cons_self e rest, h3⟩
      · obtain ⟨e2, he2, heq⟩ := h2
        exact Or.inr ⟨e2, List.mem_cons_of_mem e he2, heq⟩

theorem insertNew_nodup (ks : List String) (k : String) (h : ks.Nodup) :
    (insertNew ks k).Nodup := by
  by_cases h2 : k ∈ ks
  · simpa [insertNew, h2] using h
  · simp [insertNew, h2, List.nodup_append, h]

theorem foldl_insertNew_nodup (ps ks : List String) (h : ks.Nodup) :
    (ps.foldl insertNew ks).Nodup := by
  induction ps generalizing ks with
  | nil => exact h
  | cons p rest ih => exact ih _ (insertNew_nodup ks p h)

theorem dictGet_eq_none_of_not_mem (l : List (String × Attr)) (k : String)
    (h : k ∉ l.map Prod.fst) : dictGet l k = none := by
  induction l with
  | nil => rfl
  | cons kv rest ih =>
      have h1 : ¬ kv.1 = k := by
        intro h2
        exact h (by simp [h2])
      have h2 : k ∉ rest.map Prod.fst := by
        intro h3
        exact h (by simp [h3])
      simp [dictGet, h1, ih h2]

theorem groupInv_mono (p : String) (st st2 : FilterState)
    (g : List (String × EvalProps))
    (hget : dictGet st2.byPath p = dictGet st.byPath p)
    (hsh : ∀ x ∈ st.shared, x ∈ st2.shared)
    (h : GroupInv p st g) : GroupInv p st2 g := by
  constructor
  · intro h2
    exact h.1 (by rw [← hget]; exact h2)
  · intro a ha
    obtain ⟨pre, e0, suf, hsplit, haeq, hpre, hsuf, hpreS, hsufS⟩ :=
      h.2 a (by rw [← hget]; exact ha)
    exact ⟨pre, e0, suf, hsplit, haeq, hpre, hsuf,
      fun f hf => hsh _ (hpreS f hf), fun f hf => hsh _ (hsufS f hf)⟩

theorem groupInv_step (st : FilterState) (g : List (String × EvalProps))
    (p : String) (e : String × EvalProps) (h : GroupInv p st g) :
    GroupInv p (filterStep st e)
      (g ++ if e.2.path = some p then [e] else []) := by
  by_cases hc : e.2.path = some p
  · rw [if_pos hc]
    cases hg : dictGet st.byPath p with
    | none =>
        have hgnil : g = [] := h.1 hg
        rw [filterStep_some_new st e p hc hg]
        constructor
        · intro h2
          rw [show ({ st with
              byPath := dictInsert st.byPath p (mkAttr e.1 e.2) } :
                FilterState).byPath = dictInsert st.byPath p (mkAttr e.1 e.2)
              from rfl, dictGet_dictInsert_self] at h2
          exact absurd h2 (by simp)
        · intro a ha
          rw [show ({ st with
              byPath := dictInsert st.byPath p (mkAttr e.1 e.2) } :
                FilterState).byPath = dictInsert st.byPath p (mkAttr e.1 e.2)
              from rfl, dictGet_dictInsert_self] at ha
          refine ⟨[], e, [], by simp [hgnil], (Option.some.inj ha).symm,
            by simp, by simp, by simp, by simp⟩
    | some other =>
        obtain ⟨pre, e0, suf, hsplit, haeq, hpre, hsuf, hpreS, hsufS⟩ :=
          h.2 other hg
        have hname : other.name = e0.1 := by rw [haeq]; rfl
        by_cases hlen : other.name.length > e.1.length
        · rw [filterStep_some_replace st e p other hc hg hlen]
          have hlen0 : e.1.length < e0.1.length := by
            rw [hname] at hlen
            exact hlen
          constructor
          · intro h2
            rw [show ({ st with
                byPath := dictInsert st.byPath p (mkAttr e.1 e.2)
                shared := st.shared ++ [other.name] } :
                  FilterState).byPath = dictInsert st.byPath p (mkAttr e.1 e.2)
                from rfl, dictGet_dictInsert_self] at h2
            exact absurd h2 (by simp)
          · intro a ha
            rw [show ({ st with
                byPath := dictInsert st.byPath p (mkAttr e.1 e.2)
                shared := st.shared ++ [other.name] } :
                  FilterState).byPath = dictInsert st.byPath p (mkAttr e.1 e.2)
                from rfl, dictGet_dictInsert_self] at ha
            refine ⟨pre ++ e0 :: suf, e, [], by rw [hsplit],
              (Option.some.inj ha).symm, ?_, by simp, ?_, by simp⟩
            · intro f hf
              rcases List.mem_append.mp hf with hf1 | hf1
              · exact lt_trans hlen0 (hpre f hf1)
              · rcases List.mem_cons.mp hf1 with hf2 | hf2
                · rw [hf2]
                  exact hlen0
                · exact lt_of_lt_of_le hlen0 (hsuf f hf2)
            · intro f hf
              have hshared : ({ st with
                  byPath := dictInsert st.byPath p (mkAttr e.1 e.2)
                  shared := st.shared ++ [other.name] } :
                    FilterState).shared = st.shared ++ [other.name] := rfl
              rw [hshared]
              rcases List.mem_append.mp hf with hf1 | hf1
              · exact List.mem_append_left _ (hpreS f hf1)
              · rcases List.mem_cons.mp hf1 with hf2 | hf2
                · rw [hf2, ← hname]
                  exact List.mem_append_right _ (List.mem_singleton_self _)
                · exact List.mem_append_left _ (hsufS f hf2)
        · rw [filterStep_some_keep st e p other hc hg hlen]
          have hle : e0.1.length ≤ e.1.length := by
            rw [hname] at hlen
            exact Nat.le_of_not_lt hlen
          constructor
          · intro h2
            rw [show ({ st with shared := st.shared ++ [e.1] } :
                FilterState).byPath = st.byPath from rfl, hg] at h2
            exact absurd h2 (by simp)
          · intro a ha
            rw [show ({ st with shared := st.shared ++ [e.1] } :
                FilterState).byPath = st.byPath from rfl, hg] at ha
            have haa : a = other := (Option.some.inj ha).symm
            refine ⟨pre, e0, suf ++ [e], by rw [hsplit]; simp, by rw [haa]; exact haeq,
              hpre, ?_, fun f hf => List.mem_append_left _ (hpreS f hf), ?_⟩
            · intro f hf
              rcases List.mem_append.mp hf with hf1 | hf1
              · exact hsuf f hf1
              · rw [List.mem_singleton.mp hf1]
                exact hle
            · intro f hf
              rcases List.mem_append.mp hf with hf1 | hf1
              · exact List.mem_append_left _ (hsufS f hf1)
              · rw [List.mem_singleton.mp hf1]
                exact List.mem_append_right _ (List.mem_singleton_self _)
  · rw [if_neg hc, List.append_nil]
    cases hp : e.2.path with
    | none =>
        rw [filterStep_none st e hp]
        exact groupInv_mono p st _ g rfl (fun x hx => hx) h
    | some q =>
        have hq : q ≠ p := by
          intro h2
          rw [h2] at hp
          exact hc hp
        have hpq : p ≠ q := fun h2 => hq h2.symm
        cases hg : dictGet st.byPath q with
        | none =>
            rw [filterStep_some_new st e q hp hg]
            exact groupInv_mono p st _ g
              (dictGet_dictInsert_ne st.byPath q p (mkAttr e.1 e.2) hpq)
              (fun x hx => hx) h
        | some other =>
            by_cases hlen : other.name.length > e.1.length
            · rw [filterStep_some_replace st e q other hp hg hlen]
              exact groupInv_mono p st _ g
                (dictGet_dictInsert_ne st.byPath q p (mkAttr e.1 e.2) hpq)
                (fun x hx => List.mem_append_left _ hx) h
            · rw [filterStep_some_keep st e q other hp hg hlen]
              exact groupInv_mono p st _ g rfl
                (fun x hx => List.mem_append_left _ hx) h

theorem fold_group (json : List (String × EvalProps)) (st : FilterState)
    (g : List (String × EvalProps)) (p : String) (h : GroupInv p st g) :
    GroupInv p (json.foldl filterStep st) (g ++ groupEntries p json) := by
  induction json generalizing st g with
  | nil => simpa [groupEntries] using h
  | cons e rest ih =>
      rw [List.foldl_cons]
      have hge : groupEntries p (e :: rest) =
          (if e.2.path = some p then [e] else []) ++ groupEntries p rest := by
        by_cases hc : e.2.path = some p <;> simp [groupEntries, hc]
      rw [hge, ← List.append_assoc]
      exact ih (filterStep st e) _ (groupInv_step st g p e h)

/-! Lemmas describing the returned list of `nix_eval_filter`. -/

theorem canon_filter_get_none (l : List (String × Attr)) (s : List String)
    (p : String) (hinv : ∀ kv ∈ l, kv.2.path = some kv.1)
    (hg : dictGet l p = none) :
    (l.map (fun kv => { kv.2 with aliases := s })).filter
      (fun b => b.path = some p) = [] := by
  induction l with
  | nil => simp
  | cons kv rest ih =>
      have h1 : ¬ kv.1 = p := by
        intro h2
        simp [dictGet, h2] at hg
      have h2 : dictGet rest p = none := by simpa [dictGet, h1] using hg
      have h3 : ({ kv.2 with aliases := s } : Attr).path = some kv.1 :=
        hinv kv (List.mem_cons_self kv rest)
      have h5 : ¬ kv.2.path = some p := by
        rw [hinv kv (List.mem_cons_self kv rest)]
        simp [h1]
      have ihr := ih (fun kv2 h4 => hinv kv2 (List.mem_cons_of_mem kv h4)) h2
      simp [List.filter_cons, h3, h1, h5, ihr]

theorem canon_filter_get_some (l : List (String × Attr)) (s : List String)
    (p : String) (a : Attr) (hinv : ∀ kv ∈ l, kv.2.path = some kv.1)
    (hnd : (l.map Prod.fst).Nodup) (hg : dictGet l p = some a) :
    (l.map (fun kv => { kv.2 with aliases := s })).filter
      (fun b => b.path = some p) = [{ a with aliases := s }] := by
  induction l with
  | nil => simp [dictGet] at hg
  | cons kv rest ih =>
      have h3 : ({ kv.2 with aliases := s } : Attr).path = some kv.1 :=
        hinv kv (List.mem_cons_self kv rest)
      by_cases h1 : kv.1 = p
      · have ha : kv.2 = a := by simpa [dictGet, h1] using hg
        have hp2 : p ∉ rest.map Prod.fst := by
          rw [← h1]
          exact (List.nodup_cons.mp (by simpa using hnd)).1
        have hrest : dictGet rest p = none := dictGet_eq_none_of_not_mem rest p hp2
        have hrnil := canon_filter_get_none rest s p
          (fun kv2 h4 => hinv kv2 (List.mem_cons_of_mem kv h4)) hrest
        have h6 : a.path = some p := by
          rw [← ha, hinv kv (List.mem_cons_self kv rest), h1]
        simp [List.filter_cons, h3, h1, ha, h6, hrnil]
      · have h2 : dictGet rest p = some a := by simpa [dictGet, h1] using hg
        have h5 : ¬ kv.2.path = some p := by
          rw [hinv kv (List.mem_cons_self kv rest)]
          simp [h1]
        have ihr := ih (fun kv2 h4 => hinv kv2 (List.mem_cons_of_mem kv h4))
          (by simpa using (List.nodup_cons.mp (by simpa using hnd)).2) h2
        simp [List.filter_cons, h3, h1, h5, ihr]

theorem broken_filter_none (l : List Attr) (s : List String) (p : String)
    (hinv : ∀ a ∈ l, a.path = none) :
    (l.map (fun a => { a with aliases := s })).filter
      (fun b => b.path = some p) = [] := by
  induction l with
  | nil => simp
  | cons a rest ih =>
      have h1 : ({ a with aliases := s } : Attr).path = none :=
        hinv a (List.mem_cons_self a rest)
      have h5 : ¬ a.path = some p := by
        rw [hinv a (List.mem_cons_self a rest)]
        simp
      have ihr := ih (fun a2 h2 => hinv a2 (List.mem_cons_of_mem a h2))
      simp [List.filter_cons, h1, h5, ihr]

/-- Every target returned by `_nix_eval_filter` was constructed by
`Attr(...)` from one entry of the input mapping; only its `aliases`
attribute (the shared list) differs from that construction. -/
theorem mem_output (json : List (String × EvalProps)) (a : Attr)
    (ha : a ∈ nix_eval_filter json) :
    ∃ e ∈ json, a = { mkAttr e.1 e.2 with aliases := a.aliases } := by
  have hsplit := ha
  rw [nix_eval_filter] at hsplit
  rcases List.mem_append.mp hsplit with hc | hb
  · obtain ⟨kv, hkv, heq⟩ := List.mem_map.mp hc
    rcases fold_values json ⟨[], [], []⟩ kv hkv with h2 | h2
    · simp at h2
    · obtain ⟨e, he, heq2⟩ := h2
      refine ⟨e, he, ?_⟩
      rw [← heq, heq2]
  · obtain ⟨b, hbmem, heq⟩ := List.mem_map.mp hb
    rw [fold_broken json ⟨[], [], []⟩] at hbmem
    simp only [List.nil_append] at hbmem
    obtain ⟨e, he, heq2⟩ := List.mem_map.mp hbmem
    refine ⟨e, List.mem_of_mem_filter he, ?_⟩
    rw [← heq, ← heq2]

/-- Field version of `mem_output`: the identifying fields of every
returned target come from one input entry, with
`blacklisted = (name in blacklist)`. -/
theorem mem_output_fields (json : List (String × EvalProps)) (a : Attr)
    (ha : a ∈ nix_eval_filter json) :
    ∃ e ∈ json, a.name = e.1 ∧ a.exists_ = e.2.exists_ ∧
      a.broken = e.2.broken ∧
      a.blacklisted = blacklistNames.contains e.1 ∧ a.path = e.2.path := by
  obtain ⟨e, he, heq⟩ := mem_output json a ha
  refine ⟨e, he, ?_, ?_, ?_, ?_, ?_⟩ <;> rw [heq] <;> rfl

theorem output_blacklisted (json : List (String × EvalProps)) (a : Attr)
    (ha : a ∈ nix_eval_filter json) :
    a.blacklisted = blacklistNames.contains a.name := by
  obtain ⟨e, _, hn, _, _, hbl, _⟩ := mem_output_fields json a ha
  rw [hn, hbl]

/-! Lemmas about the verifier `was_build`. -/

theorem was_build_stable (oracle : String → Bool) (a : Attr) :
    was_build oracle ((was_build oracle a).2.1) =
      ((was_build oracle a).1, (was_build oracle a).2.1, 0) := by
  cases hp : a.path with
  | none => simp [was_build, hp]
  | some p =>
      cases hv : a.path_verified with
      | some v => simp [was_build, hp, hv]
      | none => simp [was_build, hp, hv]

theorem was_build_calls_le (oracle : String → Bool) (a : Attr) :
    (was_build oracle a).2.2 ≤ 1 := by
  cases hp : a.path with
  | none => simp [was_build, hp]
  | some p =>
      cases hv : a.path_verified with
      | some v => simp [was_build, hp, hv]
      | none => simp [was_build, hp, hv]

theorem was_build_seq_stable (oracle : String → Bool) (a : Attr) (r : Bool)
    (h : was_build oracle a = (r, a, 0)) (n : Nat) :
    was_build_seq oracle a n = (List.replicate n r, a, 0) := by
  induction n with
  | zero => simp [was_build_seq]
  | succ m ih => simp [was_build_seq, h, ih, List.replicate_succ]

/-- C8: `wasBuilt` is idempotent within one run: every call in a
sequence of repeated calls returns the same boolean, the whole sequence
performs at most one external validity check, and when `outputPath` is
null every call returns `false` with zero external calls (the result is
cached in `path_verified` and never recomputed). -/
theorem C8_wasBuilt_idempotent (oracle : String → Bool) (a : Attr) (n : Nat) :
    (∃ b, (was_build_seq oracle a n).1 = List.replicate n b) ∧
    (was_build_seq oracle a n).2.2 ≤ 1 ∧
    (if a.path = none then
      (was_build_seq oracle a n).1 = List.replicate n false ∧
      (was_build_seq oracle a n).2.2 = 0
    else True) := by
  cases n with
  | zero =>
      refine ⟨⟨false, rfl⟩, by simp [was_build_seq], ?_⟩
      by_cases hp : a.path = none <;> simp [hp, was_build_seq]
  | succ m =>
      have hrest := was_build_seq_stable oracle (was_build oracle a).2.1
        (was_build oracle a).1 (was_build_stable oracle a) m
      have h1 : was_build_seq oracle a (m + 1) =
          ((was_build oracle a).1 :: List.replicate m (was_build oracle a).1,
            (was_build oracle a).2.1, (was_build oracle a).2.2) := by
        simp [was_build_seq, hrest]
      refine ⟨⟨(was_build oracle a).1, by rw [h1, List.replicate_succ]⟩,
        by rw [h1]; exact was_build_calls_le oracle a, ?_⟩
      by_cases hp : a.path = none
      · have h2 : was_build oracle a = (false, a, 0) := by simp [was_build, hp]
        simp [hp, h1, h2, List.replicate_succ]
      · simp [hp]

/-- C9: when the external evaluation invocation exits non-zero,
`nix_eval` propagates the failure, performs exactly one evaluation
attempt (no retry) and does not unlink the temporary input artifact; on
success the artifact is unlinked and the parsed, filtered target list is
returned. -/
theorem C9_eval_failure_keeps_artifact
    (run : Except Unit (List (String × EvalProps))) :
    (run = Except.error () →
      (nix_eval run).1 = Except.error () ∧
      (nix_eval run).2 = [NEvent.writeArtifact, NEvent.runEval,
        NEvent.warnMsg, NEvent.closeArtifact] ∧
      NEvent.unlinkArtifact ∉ (nix_eval run).2 ∧
      (nix_eval run).2.count NEvent.runEval = 1) ∧
    (∀ js, run = Except.ok js →
      (nix_eval run).1 = Except.ok (nix_eval_filter js) ∧
      NEvent.unlinkArtifact ∈ (nix_eval run).2 ∧
      (nix_eval run).2.count NEvent.runEval = 1) := by
  constructor
  · intro h
    subst h
    refine ⟨rfl, rfl, ?_, ?_⟩ <;> decide
  · intro js h
    subst h
    refine ⟨rfl, ?_, ?_⟩ <;> simp [nix_eval, List.count_cons]

theorem C9_witness :
    (nix_eval (Except.error ())).1 = Except.error () ∧
    NEvent.unlinkArtifact ∈
      (nix_eval (Except.ok ([] : List (String × EvalProps)))).2 :=
  ⟨((C9_eval_failure_keeps_artifact (Except.error ())).1 rfl).1,
    ((C9_eval_failure_keeps_artifact (Except.ok [])).2 [] rfl).2.1⟩

/-- C6: calling the builder with an empty name set returns an empty list
after only the informational log message: no evaluation invocation, no
build-description file written, no build invocation. -/
theorem C6_empty_build (evalRun : Except Unit (List (String × EvalProps)))
    (buildOk : Bool) :
    nix_build [] evalRun buildOk = (Except.ok [], [BEvent.infoMsg]) ∧
    BEvent.evalCall ∉ (nix_build [] evalRun buildOk).2 ∧
    (∀ ns, BEvent.writeBuildFile ns ∉ (nix_build [] evalRun buildOk).2) ∧
    (∀ ns b, BEvent.buildCall ns b ∉ (nix_build [] evalRun buildOk).2) := by
  refine ⟨rfl, ?_, ?_, ?_⟩ <;> simp [nix_build]

/-! Lemmas about `nix_build` on a non-empty input. -/

theorem nix_build_nonempty (names : List String)
    (js : List (String × EvalProps)) (buildOk : Bool) (h : names ≠ []) :
    nix_build names (Except.ok js) buildOk =
      (Except.ok (nix_eval_filter js),
        if (buildFiltered (nix_eval_filter js)).length = 0 then
          [BEvent.evalCall]
        else
          [BEvent.evalCall,
            BEvent.writeBuildFile (buildFiltered (nix_eval_filter js)),
            BEvent.buildCall (buildFiltered (nix_eval_filter js)) buildOk]) := by
  have he : names.isEmpty = false := by
    cases names with
    | nil => exact absurd rfl h
    | cons x xs => rfl
  by_cases hf : (buildFiltered (nix_eval_filter js)).length = 0 <;>
    simp [nix_build, nix_eval, he, hf]

theorem mem_buildFiltered (attrs : List Attr) (a : Attr) (ha : a ∈ attrs)
    (hb : a.broken = false) (hbl : a.blacklisted = false) :
    a.name ∈ buildFiltered attrs := by
  exact List.mem_map_of_mem Attr.name
    (List.mem_filter.mpr ⟨ha, by simp [hb, hbl]⟩)

/-- C7: on a non-empty input whose evaluation succeeds, `nix_build`
returns the full evaluated target list whatever the build exit status
(a non-zero exit is caught at this layer), and when the buildable list
is empty no build-description file is written and no build is
invoked. -/
theorem C7_build_returns_full_list (names : List String)
    (js : List (String × EvalProps)) (buildOk : Bool) (h : names ≠ []) :
    (nix_build names (Except.ok js) buildOk).1 =
      Except.ok (nix_eval_filter js) ∧
    (buildFiltered (nix_eval_filter js) = [] →
      (∀ ns, BEvent.writeBuildFile ns ∉
        (nix_build names (Except.ok js) buildOk).2) ∧
      (∀ ns b, BEvent.buildCall ns b ∉
        (nix_build names (Except.ok js) buildOk).2)) := by
  rw [nix_build_nonempty names js buildOk h]
  constructor
  · rfl
  · intro hempty
    rw [hempty]
    constructor <;> intro ns <;> simp

theorem C7_witness :
    (nix_build ["x"] (Except.ok ([] : List (String × EvalProps))) false).1 =
      Except.ok (nix_eval_filter []) ∧
    BEvent.buildCall [] false ∉
      (nix_build ["x"] (Except.ok ([] : List (String × EvalProps))) false).2 :=
  ⟨(C7_build_returns_full_list ["x"] [] false (by simp)).1,
    ((C7_build_returns_full_list ["x"] [] false (by simp)).2 rfl).2 [] false⟩

/-- C4: a target whose name is in the fixed denylist is marked
`blacklisted` regardless of its `broken` value, and its name never
appears in the buildable list `filtered` computed by `nix_build`. -/
theorem C4_denylist (json : List (String × EvalProps)) (name : String)
    (h : name ∈ blacklistNames) :
    (∀ a ∈ nix_eval_filter json, a.name = name → a.blacklisted = true) ∧
    name ∉ buildFiltered (nix_eval_filter json) := by
  have hc : blacklistNames.contains name = true := by
    simpa using List.elem_eq_true_of_mem h
  constructor
  · intro a ha hn
    rw [output_blacklisted json a ha, hn]
    exact hc
  · intro hmem
    obtain ⟨a, haf, hname⟩ := List.mem_map.mp hmem
    obtain ⟨hamem, hpred⟩ := List.mem_filter.mp haf
    have hbl : a.blacklisted = true := by
      rw [output_blacklisted json a hamem, hname]
      exact hc
    simp [hbl] at hpred

theorem C4_witness :
    "tests.nixos-functions.nixos-test" ∉
      buildFiltered (nix_eval_filter
        [("tests.nixos-functions.nixos-test",
          ⟨true, false, some "/store/p", none⟩)]) :=
  (C4_denylist
    [("tests.nixos-functions.nixos-test", ⟨true, false, some "/store/p", none⟩)]
    "tests.nixos-functions.nixos-test" (by decide)).2

/-- C10: the buildable filter of `nix_build` tests only `broken` and
`blacklisted`: any evaluated target with both flags false has its name
in the buildable list and is passed to the external build invocation,
whatever its `exists` flag. -/
theorem C10_exists_flag_ignored (json : List (String × EvalProps)) (a : Attr)
    (ha : a ∈ nix_eval_filter json) (hb : a.broken = false)
    (hbl : a.blacklisted = false) :
    a.name ∈ buildFiltered (nix_eval_filter json) ∧
    (∀ names buildOk, names ≠ ([] : List String) →
      BEvent.buildCall (buildFiltered (nix_eval_filter json)) buildOk ∈
        (nix_build names (Except.ok json) buildOk).2 ∧
      a.name ∈ buildFiltered (nix_eval_filter json)) := by
  have hmem := mem_buildFiltered (nix_eval_filter json) a ha hb hbl
  refine ⟨hmem, fun names buildOk hne => ⟨?_, hmem⟩⟩
  rw [nix_build_nonempty names json buildOk hne]
  have hlen : ¬ (buildFiltered (nix_eval_filter json)).length = 0 := by
    intro h0
    rw [List.length_eq_zero] at h0
    rw [h0] at hmem
    simp at hmem
  simp [hlen]

theorem C10_witness :
    ({ name := "x", exists_ := false, broken := false, blacklisted := false,
        path := some "/store/q", drvPath := some "/store/q.drv",
        path_verified := none, aliases := [] } : Attr).exists_ = false ∧
    "x" ∈ buildFiltered (nix_eval_filter
      [("x", ⟨false, false, some "/store/q", some "/store/q.drv"⟩)]) :=
  ⟨rfl,
    (C10_exists_flag_ignored
      [("x", ⟨false, false, some "/store/q", some "/store/q.drv"⟩)]
      { name := "x", exists_ := false, broken := false, blacklisted := false,
        path := some "/store/q", drvPath := some "/store/q.drv",
        path_verified := none, aliases := [] }
      (by decide) rfl rfl).1⟩

/-- C5 counterexample: a target whose evaluation reported `path: null`,
with `broken = false` and `blacklisted = false`, is included in the
buildable list and listed in the generated build-description file — the
claim that null `outputPath` excludes a target from the buildable set is
false. -/
theorem C5_counterexample :
    "x" ∈ buildFiltered (nix_eval_filter [("x", ⟨true, false, none, none⟩)]) ∧
    BEvent.writeBuildFile ["x"] ∈
      (nix_build ["x"] (Except.ok [("x", ⟨true, false, none, none⟩)]) true).2 ∧
    BEvent.buildCall ["x"] true ∈
      (nix_build ["x"] (Except.ok [("x", ⟨true, false, none, none⟩)]) true).2 := by
  refine ⟨?_, ?_, ?_⟩ <;> decide

/-- C5 (amended): a null `outputPath` does not exclude a target from the
buildable set — the filter of `nix_build` tests only `broken` and
`blacklisted`, so a null-path target with both flags false has its name
in the buildable list; null `outputPath` is effectively broken only for
verification, where `wasBuilt` returns `false` with no external call. -/
theorem C5_null_path_still_buildable (json : List (String × EvalProps))
    (a : Attr) (ha : a ∈ nix_eval_filter json) (hp : a.path = none)
    (hb : a.broken = false) (hbl : a.blacklisted = false) :
    a.name ∈ buildFiltered (nix_eval_filter json) ∧
    (∀ oracle, was_build oracle a = (false, a, 0)) := by
  refine ⟨mem_buildFiltered (nix_eval_filter json) a ha hb hbl, ?_⟩
  intro oracle
  simp [was_build, hp]

theorem C5_witness :
    ({ name := "x", exists_ := true, broken := false, blacklisted := false,
        path := none, drvPath := none, path_verified := none,
        aliases := [] } : Attr).path = none ∧
    "x" ∈ buildFiltered (nix_eval_filter [("x", ⟨true, false, none, none⟩)]) :=
  ⟨rfl,
    (C5_null_path_still_buildable [("x", ⟨true, false, none, none⟩)]
      { name := "x", exists_ := true, broken := false, blacklisted := false,
        path := none, drvPath := none, path_verified := none, aliases := [] }
      (by decide) rfl rfl rfl).1⟩

theorem broken_paths (json : List (String × EvalProps)) (b : Attr)
    (hb : b ∈ (json.foldl filterStep ⟨[], [], []⟩).broken) : b.path = none := by
  rw [fold_broken json ⟨[], [], []⟩] at hb
  rcases List.mem_append.mp hb with h1 | h1
  · simp at h1
  · obtain ⟨e, he, heq⟩ := List.mem_map.mp h1
    have h2 := List.mem_filter.mp he
    rw [← heq]
    show e.2.path = none
    simpa using h2.2

/-- C1 evaluated at the failing input: one batch with two merge groups.
Because `aliases: List[str] = []` in `Attr.__init__` is a single shared
default list, both returned canonical targets report the same aliases
list `["bb", "dd"]`, so the target for `/p1` carries the alias `"dd"`
that resolved to `/p2` (and vice versa with `"bb"`). -/
theorem C1_shared_aliases_bug :
    (nix_eval_filter [("a", ⟨true, false, some "/p1", none⟩),
        ("bb", ⟨true, false, some "/p1", none⟩),
        ("c", ⟨true, false, some "/p2", none⟩),
        ("dd", ⟨true, false, some "/p2", none⟩)]).map
      (fun a => (a.name, a.path, a.aliases)) =
      [("a", some "/p1", ["bb", "dd"]), ("c", some "/p2", ["bb", "dd"])] := by
  decide

/-- C2 counterexample: three evaluation results share the output path
`/p`. For the pair `("ccc", "bb")` the claim demands that exactly one of
the two survive as canonical, but the returned list is a single target
named `"a"`: neither name of the pair survives. -/
theorem C2_counterexample :
    (nix_eval_filter [("ccc", ⟨true, false, some "/p", none⟩),
        ("bb", ⟨true, false, some "/p", none⟩),
        ("a", ⟨true, false, some "/p", none⟩)]).map Attr.name = ["a"] ∧
    "ccc" ∉ (nix_eval_filter [("ccc", ⟨true, false, some "/p", none⟩),
        ("bb", ⟨true, false, some "/p", none⟩),
        ("a", ⟨true, false, some "/p", none⟩)]).map Attr.name ∧
    "bb" ∉ (nix_eval_filter [("ccc", ⟨true, false, some "/p", none⟩),
        ("bb", ⟨true, false, some "/p", none⟩),
        ("a", ⟨true, false, some "/p", none⟩)]).map Attr.name := by
  refine ⟨?_, ?_, ?_⟩ <;> decide

/-- C2 (amended): among all evaluation results of one batch sharing a
non-null output path, exactly one survives in the returned list as
canonical: one group entry whose name is strictly shorter than every
earlier group entry's and no longer than every later one's (the
first-seen name of minimal length), and every other group entry's name
appears in the canonical target's aliases list. -/
theorem C2_canonical_per_group (json : List (String × EvalProps)) (p : String)
    (h : groupEntries p json ≠ []) :
    ∃ a pre e suf,
      (nix_eval_filter json).filter (fun b => b.path = some p) = [a] ∧
      groupEntries p json = pre ++ e :: suf ∧
      a.name = e.1 ∧ a.path = some p ∧
      (∀ f ∈ pre, e.1.length < f.1.length) ∧
      (∀ f ∈ suf, e.1.length ≤ f.1.length) ∧
      (∀ f ∈ pre, f.1 ∈ a.aliases) ∧
      (∀ f ∈ suf, f.1 ∈ a.aliases) := by
  have hinv0 : GroupInv p ⟨[], [], []⟩ [] :=
    ⟨fun _ => rfl, fun a ha => by simp [dictGet] at ha⟩
  have hgr := fold_group json ⟨[], [], []⟩ [] p hinv0
  rw [List.nil_append] at hgr
  cases hg : dictGet (json.foldl filterStep ⟨[], [], []⟩).byPath p with
  | none => exact absurd (hgr.1 hg) h
  | some a0 =>
      obtain ⟨pre, e, suf, hsplit, ha0, hpre, hsuf, hpreS, hsufS⟩ := hgr.2 a0 hg
      have hpi := fold_pathInv json ⟨[], [], []⟩ (by simp)
      have hnd : ((json.foldl filterStep ⟨[], [], []⟩).byPath.map
          Prod.fst).Nodup := by
        rw [fold_keys json ⟨[], [], []⟩]
        exact foldl_insertNew_nodup _ _ (by simp)
      have hbp : ∀ b ∈ (json.foldl filterStep ⟨[], [], []⟩).broken,
          b.path = none := fun b hb => broken_paths json b hb
      have hfilter : (nix_eval_filter json).filter (fun b => b.path = some p) =
          [{ a0 with
              aliases := (json.foldl filterStep ⟨[], [], []⟩).shared }] := by
        rw [show nix_eval_filter json = canonPart json ++ unresPart json
          from rfl, List.filter_append]
        simp only [canonPart, unresPart]
        rw [canon_filter_get_some _ _ p a0 hpi hnd hg,
          broken_filter_none _ _ p hbp]
        simp
      refine ⟨{ a0 with
          aliases := (json.foldl filterStep ⟨[], [], []⟩).shared },
        pre, e, suf, hfilter, hsplit, ?_, ?_, hpre, hsuf,
        fun f hf => hpreS f hf, fun f hf => hsufS f hf⟩
      · show a0.name = e.1
        rw [ha0]
        rfl
      · show a0.path = some p
        exact hpi (p, a0) (dictGet_mem _ _ _ hg)

theorem C2_witness :
    groupEntries "/store/xyz"
      [("a", ⟨true, false, some "/store/xyz", none⟩),
        ("bb", ⟨true, false, some "/store/xyz", none⟩)] ≠ [] ∧
    (∃ a pre e suf,
      (nix_eval_filter [("a", ⟨true, false, some "/store/xyz", none⟩),
          ("bb", ⟨true, false, some "/store/xyz", none⟩)]).filter
        (fun b => b.path = some "/store/xyz") = [a] ∧
      groupEntries "/store/xyz"
        [("a", ⟨true, false, some "/store/xyz", none⟩),
          ("bb", ⟨true, false, some "/store/xyz", none⟩)] =
        pre ++ e :: suf ∧
      a.name = e.1 ∧ a.path = some "/store/xyz" ∧
      (∀ f ∈ pre, e.1.length < f.1.length) ∧
      (∀ f ∈ suf, e.1.length ≤ f.1.length) ∧
      (∀ f ∈ pre, f.1 ∈ a.aliases) ∧
      (∀ f ∈ suf, f.1 ∈ a.aliases)) :=
  ⟨by decide,
    C2_canonical_per_group
      [("a", ⟨true, false, some "/store/xyz", none⟩),
        ("bb", ⟨true, false, some "/store/xyz", none⟩)]
      "/store/xyz" (by decide)⟩

/-- C3: the list returned by `_nix_eval_filter` is the canonical targets
(non-null path) in the insertion order of the `attr_by_path` dict — the
first-occurrence order of the distinct non-null output paths — followed
by the unresolved targets (null path) in their original input order,
one entry per null-path evaluation result. -/
theorem C3_output_order (json : List (String × EvalProps)) :
    ∃ canon unres,
      nix_eval_filter json = canon ++ unres ∧
      (∀ a ∈ canon, a.path ≠ none) ∧
      canon.map Attr.path =
        (firstOccurrences (json.filterMap (fun e => e.2.path))).map some ∧
      unres.map Attr.name =
        (json.filter (fun e => e.2.path = none)).map Prod.fst ∧
      (∀ a ∈ unres, a.path = none) := by
  refine ⟨canonPart json, unresPart json, rfl, ?_, ?_, ?_, ?_⟩
  · intro a ha
    simp only [canonPart] at ha
    obtain ⟨kv, hkv, heq⟩ := List.mem_map.mp ha
    have hpi := fold_pathInv json ⟨[], [], []⟩ (by simp) kv hkv
    rw [← heq]
    show kv.2.path ≠ none
    rw [hpi]
    simp
  · simp only [canonPart]
    rw [List.map_map]
    have h2 : ((json.foldl filterStep ⟨[], [], []⟩).byPath).map
        (Attr.path ∘ fun kv => { kv.2 with
          aliases := (json.foldl filterStep ⟨[], [], []⟩).shared }) =
        ((json.foldl filterStep ⟨[], [], []⟩).byPath).map
          (some ∘ Prod.fst) := by
      apply List.map_congr_left
      intro kv hkv
      exact fold_pathInv json ⟨[], [], []⟩ (by simp) kv hkv
    rw [h2, ← List.map_map, fold_keys json ⟨[], [], []⟩]
    rfl
  · simp only [unresPart]
    rw [List.map_map, fold_broken json ⟨[], [], []⟩]
    rw [show (⟨[], [], []⟩ : FilterState).broken = [] from rfl,
      List.nil_append, List.map_map]
    apply List.map_congr_left
    intro e he
    rfl
  · intro a ha
    simp only [unresPart] at ha
    obtain ⟨b, hb, heq⟩ := List.mem_map.mp ha
    have h1 := broken_paths json b hb
    rw [← heq]
    show b.path = none
    exact h1

end NixReview
